import Mathlib

/-!
Verification of the obsidian-mcp core against its specification.

The definitions below are shallow embeddings of the TypeScript sources:
  * `LRUCache`            from src/lru-cache.ts
  * parser utilities      from src/utils/obsidian-parser.ts
  * `LinkParser`          from src/utils/link-parser.ts
  * `GraphUtils`          from the graph utilities module
  * similarity functions  from src/utils/vault-utils.ts

JavaScript `Map` objects are embedded as association lists in insertion
order (`Map.set` on an existing key keeps its position; a fresh key is
appended), `Date.now()` becomes an explicit `now : Nat` argument, thrown
exceptions become `Except`, and JavaScript numbers become `Nat`/`Int`/`ℚ`
with exact arithmetic.
-/

deriving instance DecidableEq for Except

namespace ObsidianMCP

/-! ### JavaScript `Map` embedding (insertion-ordered association list) -/

/-- `Map.get`: first binding of `k`. -/
def mapLookup (l : List (String × β)) (k : String) : Option β :=
  match l with
  | [] => none
  | (k', v) :: rest => if k' = k then some v else mapLookup rest k

/-- `Map.delete`: removes the binding of `k` (keys are unique by construction). -/
def mapDelete (l : List (String × β)) (k : String) : List (String × β) :=
  l.filter (fun p => p.1 ≠ k)

/-- `Map.set`: replaces in place when the key is present, otherwise appends. -/
def mapSet (l : List (String × β)) (k : String) (v : β) : List (String × β) :=
  if (mapLookup l k).isSome then
    l.map (fun p => if p.1 = k then (k, v) else p)
  else
    l ++ [(k, v)]

/-! ### LRU cache (src/lru-cache.ts) -/

/-- A cache entry (`CacheEntry<T>` in the source). -/
structure CacheEntry (α : Type) where
  value : α
  size : Nat
  lastAccessed : Nat
  accessCount : Nat
deriving DecidableEq

/-- `LRUCache<T>`: `cache` is the insertion-ordered `Map`, `currentSize` the
accounted byte total (an `Int`, as the source never clamps it). -/
structure LRUCache (α : Type) where
  cache : List (String × CacheEntry α)
  maxSize : Nat
  maxItems : Nat
  currentSize : Int
  ttl : Nat
deriving DecidableEq

/-- The constructor. `options.ttl || 3600000`: `0` is falsy in JavaScript,
so a zero ttl also falls back to the one-hour default. -/
def LRUCache.init (α : Type) (maxSize maxItems : Nat) (ttl : Option Nat) :
    LRUCache α :=
  ⟨[], maxSize, maxItems, 0,
    match ttl with
    | some t => if t = 0 then 3600000 else t
    | none => 3600000⟩

/-- `delete(key)`: refunds the entry size and removes the binding. -/
def LRUCache.delete (c : LRUCache α) (key : String) : Bool × LRUCache α :=
  match mapLookup c.cache key with
  | some entry =>
      (true, { c with currentSize := c.currentSize - entry.size,
                      cache := mapDelete c.cache key })
  | none => (false, c)

/-- `get(key)`: expired entries are purged and miss; a hit refreshes
`lastAccessed`, bumps `accessCount` and moves the key to the MRU end. -/
def LRUCache.get (c : LRUCache α) (now : Nat) (key : String) :
    Option α × LRUCache α :=
  match mapLookup c.cache key with
  | none => (none, c)
  | some entry =>
      if now - entry.lastAccessed > c.ttl then
        (none, (c.delete key).2)
      else
        let entry' : CacheEntry α :=
          { entry with lastAccessed := now, accessCount := entry.accessCount + 1 }
        (some entry'.value,
          { c with cache := mapSet (mapDelete c.cache key) key entry' })

/-- `removeExpired()`: collects expired keys, then deletes each. -/
def LRUCache.removeExpired (c : LRUCache α) (now : Nat) : LRUCache α :=
  let keysToDelete :=
    (c.cache.filter (fun p => now - p.2.lastAccessed > c.ttl)).map Prod.fst
  keysToDelete.foldl (fun acc k => (acc.delete k).2) c

/-- The eviction `while` loop of `ensureSpace`, with explicit fuel (each
successful delete shortens the map, so `length + 1` fuel is enough).  When the
first key is the empty string, `if (firstKey)` is falsy in JavaScript and the
loop body changes nothing, so the source spins forever; the cache state is
then stable and the model returns it. -/
def LRUCache.evictLoop (c : LRUCache α) (requiredSize : Nat) :
    Nat → LRUCache α
  | 0 => c
  | fuel + 1 =>
      if (c.currentSize + requiredSize > (c.maxSize : Int) ∨
            c.cache.length ≥ c.maxItems) ∧ 0 < c.cache.length then
        match c.cache.head? with
        | some (firstKey, _) =>
            if firstKey ≠ "" then ((c.delete firstKey).2).evictLoop requiredSize fuel
            else c
        | none => c
      else c

/-- `ensureSpace(requiredSize)`: a no-op for oversized requests, otherwise
purges expired entries then evicts LRU entries until there is room. -/
def LRUCache.ensureSpace (c : LRUCache α) (now : Nat) (requiredSize : Nat) :
    LRUCache α :=
  if requiredSize > c.maxSize then c
  else
    let c' := c.removeExpired now
    c'.evictLoop requiredSize (c'.cache.length + 1)

/-- `set(key, value, size)`: deletes a pre-existing binding, calls
`ensureSpace`, then unconditionally inserts the new entry and adds its size. -/
def LRUCache.set (c : LRUCache α) (now : Nat) (key : String) (value : α)
    (size : Nat) : LRUCache α :=
  let c1 := if (mapLookup c.cache key).isSome then (c.delete key).2 else c
  let c2 := c1.ensureSpace now size
  { c2 with cache := mapSet c2.cache key ⟨value, size, now, 1⟩,
            currentSize := c2.currentSize + size }

/-- `clear()`. -/
def LRUCache.clear (c : LRUCache α) : LRUCache α :=
  { c with cache := [], currentSize := 0 }

/-- `keys()`. -/
def LRUCache.keys (c : LRUCache α) : List String :=
  c.cache.map Prod.fst

/-- Sum of the `size` fields of the stored entries (the quantity bounded by
the spec's occupancy invariant). -/
def LRUCache.sumSizes (c : LRUCache α) : Nat :=
  (c.cache.map (fun p => p.2.size)).sum

/-! ### JavaScript string primitives

Embedded over `String.data` as structurally recursive list functions
(`endsWith`, `startsWith`, `includes`, `trim`, `split`, default `sort`),
so that concrete runs reduce inside the kernel. -/

/-- `str.endsWith(suffix)`. -/
def strEndsWith (s suffix : String) : Bool :=
  s.data.drop (s.data.length - suffix.data.length) == suffix.data

/-- `str.startsWith(pre)`. -/
def strStartsWith (s pre : String) : Bool :=
  s.data.take pre.data.length == pre.data

/-- `str.includes(c)` for a single character. -/
def strContainsChar (s : String) (c : Char) : Bool :=
  s.data.contains c

/-- `str.trim()`. -/
def strTrim (s : String) : String :=
  String.mk (((s.data.dropWhile Char.isWhitespace).reverse.dropWhile
    Char.isWhitespace).reverse)

/-- Splitter of `str.split(sep)` for a non-empty separator, with fuel
(`length + 1` always suffices, since every step consumes a character). -/
def splitOnAux (sep : List Char) : Nat → List Char → List Char →
    List (List Char)
  | 0, l, cur => [cur.reverse ++ l]
  | fuel + 1, l, cur =>
    match l with
    | [] => [cur.reverse]
    | c :: rest =>
      if l.take sep.length == sep then
        cur.reverse :: splitOnAux sep fuel (l.drop sep.length) []
      else splitOnAux sep fuel rest (c :: cur)

/-- `str.split(sep)`. -/
def strSplitOn (s sep : String) : List String :=
  if sep.data.isEmpty then [s]
  else (splitOnAux sep.data (s.data.length + 1) s.data []).map String.mk

/-- Lexicographic comparison by character code, the default comparator of
`Array.prototype.sort` on strings. -/
def charListLe : List Char → List Char → Bool
  | [], _ => true
  | _ :: _, [] => false
  | a :: as, b :: bs =>
    if a.toNat < b.toNat then true
    else if b.toNat < a.toNat then false
    else charListLe as bs

/-- Insertion step of the stable sort: `x` goes after every element that may
precede it. -/
def insertStable (le : α → α → Bool) (x : α) : List α → List α
  | [] => [x]
  | y :: ys => if le y x then y :: insertStable le x ys else x :: y :: ys

/-- A stable sort (insertion sort).  V8's `Array.prototype.sort` is stable,
and for a consistent comparator the stable-sorted permutation is unique, so
this is an adequate embedding of it. -/
def stableSortBy (le : α → α → Bool) (l : List α) : List α :=
  l.foldl (fun acc x => insertStable le x acc) []

/-! ### File-path utilities (src/utils/file-utils.ts and Node's `path` module,
POSIX flavour) -/

/-- `FileUtils.ensureMarkdownExtension`. -/
def ensureMarkdownExtension (filePath : String) : String :=
  if ¬ strEndsWith filePath ".md" then filePath ++ ".md" else filePath

/-- `link.replace(/\.md$/, '')`: strips one trailing `.md`. -/
def stripMdSuffix (link : String) : String :=
  if strEndsWith link ".md" then link.dropRight 3 else link

/-- JavaScript `str.replace(pat, rep)` with a plain-string pattern: replaces
only the first occurrence. -/
def replaceFirst (s pat rep : String) : String :=
  match strSplitOn s pat with
  | [] => s
  | [_] => s
  | p0 :: p1 :: rest => p0 ++ rep ++ String.intercalate pat (p1 :: rest)

/-- Node `path.posix.dirname`: scans backwards, skipping trailing slashes,
for the last separator at an index of at least 1. -/
def dirname (p : String) : String :=
  match p.data with
  | [] => "."
  | c0 :: _ =>
    let hasRoot := c0 = '/'
    let trimmed := (p.data.reverse.dropWhile (· = '/')).reverse
    let slashIdxs := (trimmed.enum.filter (fun q => q.2 = '/' ∧ 1 ≤ q.1)).map Prod.fst
    match slashIdxs.getLast? with
    | none => if hasRoot then "/" else "."
    | some e => if hasRoot ∧ e = 1 then "//" else String.mk (p.data.take e)

/-- Segment resolution inside Node `path.posix.normalize`: drops empty and
`.` segments and resolves `..` (which is kept at the front of a relative
path, but cannot climb above the root of an absolute one). -/
def normalizeSegs (isAbs : Bool) : List String → List String → List String
  | [], acc => acc.reverse
  | s :: rest, acc =>
    if s = "" ∨ s = "." then normalizeSegs isAbs rest acc
    else if s = ".." then
      match acc with
      | [] => if isAbs then normalizeSegs isAbs rest [] else normalizeSegs isAbs rest [".."]
      | top :: acc' =>
        if top = ".." then normalizeSegs isAbs rest (".." :: acc)
        else normalizeSegs isAbs rest acc'
    else normalizeSegs isAbs rest (s :: acc)

/-- Node `path.posix.normalize`. -/
def normalizePosix (p : String) : String :=
  if p = "" then "."
  else
    let isAbs := strStartsWith p "/"
    let trailingSep := strEndsWith p "/"
    let body := String.intercalate "/" (normalizeSegs isAbs (strSplitOn p "/") [])
    let body := if body = "" then (if isAbs then "" else if trailingSep then "." else ".")
                else body
    let withTrail := if trailingSep ∧ body ≠ "" ∧ ¬ strEndsWith body "/" then body ++ "/" else body
    if isAbs then "/" ++ withTrail else if withTrail = "" then "." else withTrail

/-- Node `path.posix.join`: concatenates the non-empty parts and normalizes. -/
def joinPath (a b : String) : String :=
  let parts := [a, b].filter (fun s => s ≠ "")
  if parts.isEmpty then "." else normalizePosix (String.intercalate "/" parts)

/-! ### Document parser (src/utils/obsidian-parser.ts)

The frontmatter YAML parsing itself is done by the external `gray-matter`
library, which is not part of this repository; functions that call it take
the library as an explicit function argument, so every theorem below holds
for every possible behaviour of that library. -/

/-- A frontmatter value (`any` in the source; the fields the core reads are
strings or string lists). -/
inductive FMValue where
  | str (s : String)
  | list (l : List String)
deriving DecidableEq

/-- The parsed frontmatter object (`Record<string, any>`); `entries` are its
own enumerable keys in insertion order, as enumerated by `Object.keys`. -/
structure Frontmatter where
  entries : List (String × FMValue)
deriving DecidableEq

/-- `frontmatter.title`, `undefined` when absent or not a string. -/
def Frontmatter.title (fm : Frontmatter) : Option String :=
  match mapLookup fm.entries "title" with
  | some (.str s) => some s
  | _ => none

/-- `frontmatter.tags`. -/
def Frontmatter.tags (fm : Frontmatter) : Option FMValue :=
  mapLookup fm.entries "tags"

/-- `ObsidianParser.parseFrontmatter`: delegates to `gray-matter`
(`matterLib` returns the `{ data, content }` pair). -/
def parseFrontmatter (matterLib : String → Frontmatter × String)
    (content : String) : Frontmatter × String :=
  matterLib content

/-- `ObsidianParser.stringifyWithFrontmatter`: returns the body untouched for
an empty frontmatter object, otherwise delegates to `matter.stringify`. -/
def stringifyWithFrontmatter (stringifyLib : Frontmatter → String → String)
    (frontmatter : Frontmatter) (content : String) : String :=
  if frontmatter.entries.length = 0 then content
  else stringifyLib frontmatter content

/-- A link's kind (`'wiki' | 'markdown' | 'external'`). -/
inductive LinkType where
  | wiki
  | markdown
  | external
deriving DecidableEq

/-- `NoteLink` (the `position.end` field is named `stop` here). -/
structure NoteLink where
  type : LinkType
  target : String
  displayText : Option String
  start : Nat
  stop : Nat
deriving DecidableEq

/-- Scanner for `/\[\[([^\]]+)\]\]/g`: at each position, `[[`, one or more
non-`]` characters, then `]]`; on failure the engine advances one character.
Every step consumes at least one character, so fuel `length + 1` is exact. -/
def extractWikiLinksAux : Nat → List Char → Nat → List NoteLink
  | 0, _, _ => []
  | _ + 1, [], _ => []
  | fuel + 1, '[' :: '[' :: rest, pos =>
    let inner := rest.takeWhile (fun c => c ≠ ']')
    let after := rest.drop inner.length
    if 1 ≤ inner.length then
      match after with
      | ']' :: ']' :: rest2 =>
        let parts := (strSplitOn (String.mk inner) "|").map strTrim
        let target := parts.headD ""
        let displayText := parts[1]?
        { type := .wiki, target := target, displayText := displayText,
          start := pos, stop := pos + inner.length + 4 } ::
          extractWikiLinksAux fuel rest2 (pos + inner.length + 4)
      | _ => extractWikiLinksAux fuel ('[' :: rest) (pos + 1)
    else extractWikiLinksAux fuel ('[' :: rest) (pos + 1)
  | fuel + 1, _ :: rest, pos => extractWikiLinksAux fuel rest (pos + 1)

/-- `ObsidianParser.extractWikiLinks`. -/
def extractWikiLinks (content : String) : List NoteLink :=
  extractWikiLinksAux (content.data.length + 1) content.data 0

/-- Scanner for `/\[([^\]]*)\]\(([^)]+)\)/g`; targets starting with
`http://` or `https://` are tagged `external`, the rest `markdown`. -/
def extractMarkdownLinksAux : Nat → List Char → Nat → List NoteLink
  | 0, _, _ => []
  | _ + 1, [], _ => []
  | fuel + 1, '[' :: rest, pos =>
    let txt := rest.takeWhile (fun c => c ≠ ']')
    let after := rest.drop txt.length
    match after with
    | ']' :: '(' :: rest2 =>
      let tgt := rest2.takeWhile (fun c => c ≠ ')')
      let after2 := rest2.drop tgt.length
      if 1 ≤ tgt.length then
        match after2 with
        | ')' :: rest3 =>
          let target := String.mk tgt
          let ty : LinkType :=
            if strStartsWith target "http://" ∨ strStartsWith target "https://" then
              .external
            else .markdown
          { type := ty, target := target, displayText := some (String.mk txt),
            start := pos, stop := pos + txt.length + tgt.length + 4 } ::
            extractMarkdownLinksAux fuel rest3 (pos + txt.length + tgt.length + 4)
        | _ => extractMarkdownLinksAux fuel rest (pos + 1)
      else extractMarkdownLinksAux fuel rest (pos + 1)
    | _ => extractMarkdownLinksAux fuel rest (pos + 1)
  | fuel + 1, _ :: rest, pos => extractMarkdownLinksAux fuel rest (pos + 1)

/-- `ObsidianParser.extractMarkdownLinks`. -/
def extractMarkdownLinks (content : String) : List NoteLink :=
  extractMarkdownLinksAux (content.data.length + 1) content.data 0

/-- `ObsidianParser.extractAllLinks`: wiki then markdown links, stably sorted
by ascending start offset (V8's `Array.prototype.sort` is stable). -/
def extractAllLinks (content : String) : List NoteLink :=
  stableSortBy (fun a b => a.start ≤ b.start)
    (extractWikiLinks content ++ extractMarkdownLinks content)

/-- The character class of the inline-tag regex `/#[a-zA-Z0-9_\-\/]+/g`. -/
def isTagChar (c : Char) : Bool :=
  c.isAlpha ∨ c.isDigit ∨ c = '_' ∨ c = '-' ∨ c = '/'

/-- Scanner for the inline-tag regex: matches are returned with their
leading `#`. -/
def tagMatchesAux : Nat → List Char → List String
  | 0, _ => []
  | _ + 1, [] => []
  | fuel + 1, '#' :: rest =>
    let run := rest.takeWhile isTagChar
    if 1 ≤ run.length then
      ("#" ++ String.mk run) :: tagMatchesAux fuel (rest.drop run.length)
    else tagMatchesAux fuel rest
  | fuel + 1, _ :: rest => tagMatchesAux fuel rest

/-- JavaScript `Set.add` on an insertion-ordered set. -/
def setAdd (l : List String) (x : String) : List String :=
  if x ∈ l then l else l ++ [x]

/-- `ObsidianParser.extractTags`: union of frontmatter tags (wrapped into a
list when scalar, each with a leading `#` stripped and trimmed) and inline
`#tag` matches, deduplicated and sorted. An empty-string scalar is falsy in
JavaScript and is skipped; a cleaned empty tag is not added. -/
def extractTags (content : String) (frontmatter : Frontmatter) : List String :=
  let fmTags : List String :=
    match frontmatter.tags with
    | none => []
    | some (.str s) => if s = "" then [] else [s]
    | some (.list l) => l
  let afterFm := fmTags.foldl (fun tags tag =>
    let cleaned := strTrim (if strStartsWith tag "#" then tag.drop 1 else tag)
    if cleaned ≠ "" then setAdd tags cleaned else tags) []
  let afterContent :=
    (tagMatchesAux (content.data.length + 1) content.data).foldl (fun tags m =>
      let cleaned := strTrim (m.drop 1)
      if cleaned ≠ "" then setAdd tags cleaned else tags) afterFm
  stableSortBy (fun a b => charListLe a.data b.data) afterContent

/-- `ObsidianParser.getNoteTitle`: the frontmatter `title` when truthy, else
the basename with the first `.md` removed (`split('/').pop() || filePath`). -/
def getNoteTitle (frontmatter : Frontmatter) (filePath : String) : String :=
  match frontmatter.title with
  | some t => if t ≠ "" then t else titleFromPath filePath
  | none => titleFromPath filePath
where
  titleFromPath (filePath : String) : String :=
    let basename := (strSplitOn filePath "/").getLastD ""
    let basename := if basename = "" then filePath else basename
    replaceFirst basename ".md" ""

/-! ### Link graph construction (src/utils/link-parser.ts)

`fileUtils.readFile` performs I/O and can throw; it is embedded as a function
into `Except`, and `buildLinkGraph` is written in the same monad: an
exception anywhere aborts the whole computation, exactly as an un-caught
`await` rejection does in the source. -/

/-- `GraphNode`. -/
structure GraphNode where
  id : String
  path : String
  title : String
  links : Nat
  backlinks : Nat
  tags : List String
deriving DecidableEq

/-- `GraphEdge`. -/
structure GraphEdge where
  source : String
  target : String
  type : LinkType
deriving DecidableEq

/-- `GraphData`. -/
structure GraphData where
  nodes : List GraphNode
  edges : List GraphEdge
  orphaned : List String
  hubs : List String
deriving DecidableEq

/-- The `LinkParser` state after a build: the returned `GraphData` plus the
instance's `linkCache` and `backlinkCache` maps. -/
structure LinkParserState where
  graph : GraphData
  linkCache : List (String × List String)
  backlinkCache : List (String × List String)
deriving DecidableEq

/-- `LinkParser.resolveLink`: strips a trailing `.md`, then resolves
vault-absolute, relative and bare-name targets; always appends `.md`. -/
def resolveLink (link fromFile : String) : String :=
  let linkWithoutExt := stripMdSuffix link
  if strStartsWith linkWithoutExt "/" then
    linkWithoutExt.drop 1 ++ ".md"
  else if strContainsChar linkWithoutExt '/' then
    let fromDir := dirname fromFile
    let resolved := joinPath fromDir linkWithoutExt
    normalizePosix resolved ++ ".md"
  else
    let fromDir := dirname fromFile
    if fromDir = "." then linkWithoutExt ++ ".md"
    else joinPath fromDir linkWithoutExt ++ ".md"

/-- The per-file link loop of `buildLinkGraph`'s first pass: builds the
outgoing-link `Set` and pushes edges, skipping external links, falsy resolved
targets, and self-targets (`targetPath !== file`). -/
def collectOutgoing (file : String) (links : List NoteLink) :
    List String × List GraphEdge :=
  links.foldl (fun acc link =>
    if link.type = .wiki ∨ link.type = .markdown then
      let targetPath := resolveLink link.target file
      if targetPath ≠ "" ∧ targetPath ≠ file then
        (setAdd acc.1 targetPath, acc.2 ++ [⟨file, targetPath, link.type⟩])
      else acc
    else acc) ([], [])

/-- Accumulator of `buildLinkGraph`'s first pass. -/
structure Pass1Acc where
  nodes : List (String × GraphNode)
  edges : List GraphEdge
  linkCache : List (String × List String)
deriving DecidableEq

/-- First pass of `buildLinkGraph`: reads every file (a failed read rejects
the whole pass), parses frontmatter, links and tags, and records the node
and its outgoing links. -/
def pass1 (readFile : String → Except String String)
    (matterLib : String → Frontmatter × String) :
    List String → Pass1Acc → Except String Pass1Acc
  | [], acc => .ok acc
  | file :: rest, acc => do
    let content ← readFile file
    let (frontmatter, _) := parseFrontmatter matterLib content
    let links := extractAllLinks content
    let tags := extractTags content frontmatter
    let (outgoing, newEdges) := collectOutgoing file links
    let node : GraphNode :=
      { id := file, path := file, title := getNoteTitle frontmatter file,
        links := outgoing.length, backlinks := 0, tags := tags }
    pass1 readFile matterLib rest
      { nodes := mapSet acc.nodes file node,
        edges := acc.edges ++ newEdges,
        linkCache := mapSet acc.linkCache file outgoing }

/-- Second pass of `buildLinkGraph`: inverts the forward-link map into the
backlink map. -/
def pass2 (linkCache : List (String × List String)) :
    List (String × List String) :=
  linkCache.foldl (fun bl entry =>
    entry.2.foldl (fun bl target =>
      let cur := (mapLookup bl target).getD []
      mapSet bl target (setAdd cur entry.1)) bl) []

/-- `LinkParser.buildLinkGraph`. -/
def buildLinkGraph (files : List String)
    (readFile : String → Except String String)
    (matterLib : String → Frontmatter × String) :
    Except String LinkParserState := do
  let acc ← pass1 readFile matterLib files ⟨[], [], []⟩
  let backlinkCache := pass2 acc.linkCache
  let nodes := acc.nodes.map (fun p =>
    { p.2 with backlinks := ((mapLookup backlinkCache p.1).getD []).length })
  let orphaned := (nodes.filter (fun n => n.links = 0 ∧ n.backlinks = 0)).map
    (fun n => n.path)
  let hubs := ((stableSortBy (fun a b =>
      b.links + b.backlinks ≤ a.links + a.backlinks) nodes).take 10).map
    (fun n => n.path)
  return { graph := ⟨nodes, acc.edges, orphaned, hubs⟩,
           linkCache := acc.linkCache,
           backlinkCache := backlinkCache }

/-- `LinkParser.getForwardLinks` read off a built state: the cached set for
the note, or the empty list. -/
def LinkParserState.getForwardLinks (st : LinkParserState) (notePath : String) :
    List String :=
  (mapLookup st.linkCache notePath).getD []

/-! ### Shortest path (`GraphUtils.findShortestPath`)

`GraphUtils` answers queries against a forward-link map (its `linkCache`,
filled from `LinkParser.getForwardLinks`); the map is embedded as the
association list `g`, and a note absent from it has no forward links, exactly
as `getForwardLinks` returns an empty list for an unknown note.  With a
pure adjacency map no per-note read can fail, so the `errors` array of the
returned envelope stays empty. -/

/-- The uniform `GraphResponse` envelope, restricted to the fields the
claims are about. -/
structure GraphResponse where
  data : List String
  errors : List String
deriving DecidableEq

/-- Forward links of `u` in the graph `g` (`linkCache.get(u) or []`). -/
def adjRaw (g : List (String × List String)) (u : String) : List String :=
  (mapLookup g u).getD []

/-- The body of the neighbour `for` loop: normalize each link; return the
extended path on hitting the target; otherwise visit-and-enqueue fresh
nodes. -/
def scanLinks (target : String) (path : List String) :
    List String → List String → List (List String) →
    Sum (List String) (List String × List (List String))
  | [], visited, newQ => .inr (visited, newQ)
  | link :: links, visited, newQ =>
    let normalizedLink := ensureMarkdownExtension link
    if normalizedLink = target then .inl (path ++ [normalizedLink])
    else if normalizedLink ∈ visited then scanLinks target path links visited newQ
    else scanLinks target path links (visited ++ [normalizedLink])
      (newQ ++ [path ++ [normalizedLink]])

/-- Result of the BFS `while` loop; `outOfFuel` is an artefact of the fuel
embedding and is proved unreachable for the fuel used below. -/
inductive BfsResult where
  | found (p : List String)
  | notFound
  | outOfFuel
deriving DecidableEq

/-- The BFS `while` loop of `findShortestPath`, with explicit fuel: each
iteration shifts one path off the queue, looks up the forward links of its
last node, and either returns a completed path or pushes the extensions. -/
def bfsLoop (g : List (String × List String)) (target : String) :
    Nat → List (List String) → List String → BfsResult
  | _, [], _ => .notFound
  | 0, _ :: _, _ => .outOfFuel
  | fuel + 1, path :: queue, visited =>
    let current := path.getLastD ""
    match scanLinks target path (adjRaw g current) visited [] with
    | .inl found => .found found
    | .inr (visited', newQ) => bfsLoop g target fuel (queue ++ newQ) visited'

/-- All strings that can ever be enqueued by the BFS: the normalized forward
links stored in the graph.  Bounds the fuel. -/
def normValues (g : List (String × List String)) : List String :=
  (g.flatMap (fun p => p.2)).map ensureMarkdownExtension

/-- `GraphUtils.findShortestPath`: normalizes both endpoints, answers the
`source === target` case with a one-element path without touching the graph,
and otherwise runs the BFS (no path found gives an empty list). -/
def findShortestPath (g : List (String × List String))
    (sourcePath targetPath : String) : GraphResponse :=
  let source := ensureMarkdownExtension sourcePath
  let target := ensureMarkdownExtension targetPath
  if source = target then { data := [source], errors := [] }
  else
    match bfsLoop g target ((normValues g).dedup.length + 2) [[source]] [source] with
    | .found p => { data := p, errors := [] }
    | _ => { data := [], errors := [] }

/-! ### Similarity engine (src/utils/vault-utils.ts)

JavaScript strings are embedded as `List Char` (`.length`, `.substring`,
`charAt` become list operations) and floating-point arithmetic as exact `ℚ`
arithmetic.  `levRec` is the textbook edit-distance recursion used as the
specification of the dynamic-programming matrix the source builds. -/

/-- Reference (specification) edit distance with unit costs, recursing on
the heads of both lists. -/
def levRec : List Char → List Char → Nat
  | [], ys => ys.length
  | x :: xs, [] => (x :: xs).length
  | x :: xs, y :: ys =>
    if x = y then levRec xs ys
    else 1 + min (levRec xs ys) (min (levRec (x :: xs) ys) (levRec xs (y :: ys)))
termination_by xs ys => xs.length + ys.length

/-- Row entries of the Levenshtein matrix for successive extensions of the
(reversed) prefix `r` of `str1`, against the (reversed) prefix `rev2` of
`str2`. -/
def rowSeg (rev2 r : List Char) : List Char → List Nat
  | [] => []
  | c :: cs => levRec rev2 (c :: r) :: rowSeg rev2 (c :: r) cs

/-- Inner loop of the Levenshtein matrix: computes row `i` from entry 1 on,
walking `str1` and the previous row in lockstep.  `diag` is
`matrix[i-1][j-1]`, `left` is `matrix[i][j-1]`, `up` is `matrix[i-1][j]`. -/
def levNextRowAux (c2 : Char) : List Char → List Nat → Nat → Nat → List Nat
  | [], _, _, _ => []
  | _ :: _, [], _, _ => []
  | c1 :: s1rest, up :: prevRest, diag, left =>
    let cur := if c2 = c1 then diag else min (diag + 1) (min (left + 1) (up + 1))
    cur :: levNextRowAux c2 s1rest prevRest up cur

/-- Row `i` of the matrix (`matrix[i] = [i]` then the inner `for`). -/
def levNextRow (c2 : Char) (s1 : List Char) (prev : List Nat) (i : Nat) :
    List Nat :=
  match prev with
  | [] => [i]
  | p0 :: prevTail => i :: levNextRowAux c2 s1 prevTail p0 i

/-- Outer loop over `str2`, starting from row 0 = `[0, 1, ..., str1.length]`. -/
def levRows (s1 : List Char) : List Char → List Nat → Nat → List Nat
  | [], row, _ => row
  | c2 :: s2rest, row, i => levRows s1 s2rest (levNextRow c2 s1 row i) (i + 1)

/-- The full dynamic program; the answer is `matrix[str2.length][str1.length]`,
the last entry of the last row. -/
def levDP (s1 s2 : List Char) : Nat :=
  (levRows s1 s2 (List.range (s1.length + 1)) 1).getLastD 0

/-- `VaultUtils.levenshteinDistance`: refuses strings above 1000 characters
(returning 0 on equality and the longer length otherwise) and otherwise runs
the matrix. -/
def levenshteinDistance (str1 str2 : List Char) : Nat :=
  if str1.length > 1000 ∨ str2.length > 1000 then
    if str1 = str2 then 0 else max str1.length str2.length
  else levDP str1 str2

/-- One sampled window of `calculateSampledSimilarity`: a 500-character
window of each string at the same offset, scored by Levenshtein distance;
an empty sample (falsy in JavaScript) contributes nothing. -/
def sampleWindow (str1 str2 : List Char) (i : Nat) : ℚ :=
  let offset := i * (min str1.length str2.length - 500) / 5
  let sample1 := (str1.drop offset).take 500
  let sample2 := (str2.drop offset).take 500
  if sample1 ≠ [] ∧ sample2 ≠ [] then
    ((max sample1.length sample2.length : ℚ) -
        levenshteinDistance sample1 sample2) /
      (max sample1.length sample2.length : ℚ)
  else 0

/-- `VaultUtils.calculateSampledSimilarity`: exact-equality short-circuit,
length-ratio gate at 0.5, then the average of 5 sampled windows blended
with the length ratio as `0.3 * ratio + 0.7 * average`. -/
def calculateSampledSimilarity (str1 str2 : List Char) : ℚ :=
  if str1 = str2 then 1
  else
    let lengthRatio : ℚ :=
      (min str1.length str2.length : ℚ) / (max str1.length str2.length : ℚ)
    if lengthRatio < 1 / 2 then 0
    else
      let totalSimilarity := ((List.range 5).map (sampleWindow str1 str2)).sum
      lengthRatio * (3 / 10) + totalSimilarity / 5 * (7 / 10)

/-- `VaultUtils.calculateStringSimilarity`: similarity
`(maxLen - distance) / maxLen`, delegating to the sampled variant above
1000 characters. -/
def calculateStringSimilarity (str1 str2 : List Char) : ℚ :=
  let longer := if str1.length > str2.length then str1 else str2
  let shorter := if str1.length > str2.length then str2 else str1
  if longer.length = 0 then 1
  else if longer.length > 1000 then calculateSampledSimilarity str1 str2
  else
    ((longer.length : ℚ) - levenshteinDistance longer shorter) /
      (longer.length : ℚ)

/-- The 50 KiB direct-comparison ceiling of the duplicate scan. -/
def SAFE_SIZE_LIMIT : Nat := 50 * 1024

/-- The content-comparison step of `VaultUtils.findDuplicateNotes` for one
pair: `file1Size`/`file2Size` are the stat-reported byte sizes,
`content1`/`content2` the file contents, `fileHash` the streamed SHA-256 of
a file's content (the external `crypto` library, passed as a function), and
`similarity` the similarity accumulated by the preceding title check.
Over-ceiling pairs use hashes only, gated by the 10% size-proximity test;
small pairs re-check the actual content length before direct comparison. -/
def contentComparisonStep (file1Size file2Size : Nat)
    (content1 content2 : List Char) (fileHash : List Char → String)
    (similarity : ℚ) : ℚ :=
  if file1Size > SAFE_SIZE_LIMIT ∨ file2Size > SAFE_SIZE_LIMIT then
    let sizeDiff : ℚ := |(file1Size : ℚ) - (file2Size : ℚ)|
    let avgSize : ℚ := ((file1Size : ℚ) + (file2Size : ℚ)) / 2
    if sizeDiff / avgSize < 1 / 10 then
      if fileHash content1 = fileHash content2 then 1 else similarity
    else similarity
  else
    if content1.length > SAFE_SIZE_LIMIT ∨ content2.length > SAFE_SIZE_LIMIT then
      if fileHash content1 = fileHash content2 then 1 else similarity
    else
      let contentSim := calculateStringSimilarity content1 content2
      if contentSim > similarity then contentSim else similarity

/-! ### Specification-side notions for the graph claims -/

/-- The directed edge relation the BFS walks: `v` is a normalized forward
link of `u`. -/
def Edge (g : List (String × List String)) (u v : String) : Prop :=
  v ∈ (adjRaw g u).map ensureMarkdownExtension

instance (g : List (String × List String)) (u v : String) :
    Decidable (Edge g u v) :=
  inferInstanceAs (Decidable (v ∈ (adjRaw g u).map ensureMarkdownExtension))

/-- `p` is a forward-link path from `s` to `t` (inclusive). -/
def IsPath (g : List (String × List String)) (s t : String)
    (p : List String) : Prop :=
  List.Chain' (Edge g) p ∧ p.head? = some s ∧ p.getLast? = some t

instance (g : List (String × List String)) (s t : String) (p : List String) :
    Decidable (IsPath g s t p) :=
  inferInstanceAs (Decidable (List.Chain' (Edge g) p ∧ p.head? = some s ∧
    p.getLast? = some t))

/-- Termination measure of the BFS loop: queue length plus the number of
enqueueable nodes not yet visited. -/
def bfsMeasure (g : List (String × List String)) (Q : List (List String))
    (V : List String) : Nat :=
  Q.length + ((normValues g).dedup.filter (fun x => x ∉ V)).length

/-- Loop invariant of the BFS in `findShortestPath` (source `S`, target `T`,
queue `Q`, visited set `V`).  Queued paths are valid chains from `S`, are no
longer than any path to their endpoint, the queue is sorted by length with at
most two adjacent length values, the target is never visited, and every
visited node either still has a pending queued path or has had all its
neighbours visited. -/
structure BfsInv (g : List (String × List String)) (S T : String)
    (Q : List (List String)) (V : List String) : Prop where
  paths : ∀ p ∈ Q, p ≠ [] ∧ List.Chain' (Edge g) p ∧ p.head? = some S ∧
    p.getLastD "" ∈ V
  minimal : ∀ p ∈ Q, ∀ r, IsPath g S (p.getLastD "") r → p.length ≤ r.length
  sortedQ : List.Pairwise (fun p q : List String => p.length ≤ q.length) Q
  close : ∀ p ∈ Q, ∀ q ∈ Q, p.length ≤ q.length + 1
  sourceV : S ∈ V
  targetV : T ∉ V
  frontier : ∀ v ∈ V, (∃ p ∈ Q, p.getLastD "" = v) ∨
    (∀ u ∈ (adjRaw g v).map ensureMarkdownExtension, u ∈ V)

/-- Invariant of the neighbour scan of one BFS iteration: `p₀` is the popped
path with last node `cur`, `V` the visited set before the pop, `Vs` the
current visited set and `newQ` the paths enqueued so far. -/
structure ScanInv (g : List (String × List String)) (S T cur : String)
    (p₀ : List String) (V Vs : List String) (newQ : List (List String)) :
    Prop where
  vsub : ∀ v ∈ V, v ∈ Vs
  tnot : T ∉ Vs
  ext : ∀ v ∈ Vs, v ∉ V → ∀ r, IsPath g S v r → p₀.length + 1 ≤ r.length
  pend : ∀ w ∈ Vs, w ∉ V → ∃ p ∈ newQ, p.getLastD "" = w
  shape : ∀ p ∈ newQ, ∃ w, p = p₀ ++ [w] ∧ Edge g cur w ∧ w ∈ Vs ∧ w ∉ V

/-- No file maps to a forward-link set containing itself. -/
def LinkCacheNoSelf (lc : List (String × List String)) : Prop :=
  ∀ f s, mapLookup lc f = some s → f ∉ s

/-! ### Test fixtures used by concrete counterexamples and witnesses -/

/-- A trivial stand-in for the `gray-matter` library: no frontmatter, body
returned unchanged. -/
def trivialMatter : String → Frontmatter × String := fun s => (⟨[]⟩, s)

/-- A reader whose read of `a.md` fails and which returns a fixed contents
for every other path. -/
def failingRead : String → Except String String := fun f =>
  if f = "a.md" then .error "EACCES: permission denied" else .ok "[[a]]"

/-- A one-document vault whose only document links to itself. -/
def selfLinkRead : String → Except String String := fun _ => .ok "[[a]]"

/-- The state built from the self-linking one-document vault (with an inert
fallback for the error case, which does not occur). -/
def selfLinkState : LinkParserState :=
  (buildLinkGraph ["a.md"] selfLinkRead trivialMatter).toOption.getD
    ⟨⟨[], [], [], []⟩, [], []⟩

/-- A stand-in for the streamed SHA-256 file hash of the external crypto
library: any function of the content will do for the theorems, and this
injective one is used by concrete witnesses. -/
def charHash : List Char → String := fun c => String.mk c

/-- A three-document chain used by the C4 witness. -/
def pathGraph : List (String × List String) :=
  [("A.md", ["B"]), ("B.md", ["C"])]

/-! ## Theorems -/

/-! ### Cache claims -/

/-- C1: the cache occupancy invariant `sum(entry.byteSize) <= maxSize` is
violated by the code: on a cache with `maxSize = 300`, `maxItems = 10`, the
single call `set("a", _, 400)` stores the oversized entry (`ensureSpace`
returns early without evicting, but `set` still inserts), leaving the sum of
stored byte sizes at `400 > 300`. -/
theorem lruCache_occupancy_violated_by_oversized_set :
    ((LRUCache.init Unit 300 10 none).set 0 "a" () 400).sumSizes = 400 ∧
    ((LRUCache.init Unit 300 10 none).set 0 "a" () 400).maxSize = 300 ∧
    ((LRUCache.init Unit 300 10 none).set 0 "a" () 400).keys = ["a"] := by
  decide

/-- C2: a `set` whose `byteSize` exceeds `maxSize` is *not* rejected: with
`maxSize = 300`, `set("a", _, 301)` stores the value and accounts 301 bytes,
contradicting the claimed no-op (the `ensureSpace` comment "If single item is
too large, don't cache it" documents the intent that `set` fails to
implement).  The boundary half of the claim does hold: a `set` of exactly
`maxSize` bytes is stored, evicting the rest, and leaves
`currentSize = maxSize`. -/
theorem lruCache_oversized_set_is_stored :
    ((LRUCache.init Unit 300 10 none).set 0 "a" () 301).keys = ["a"] ∧
    ((LRUCache.init Unit 300 10 none).set 0 "a" () 301).currentSize = 301 ∧
    (((LRUCache.init Unit 300 10 none).set 0 "a" () 100).set 0 "b" () 300).keys
      = ["b"] ∧
    (((LRUCache.init Unit 300 10 none).set 0 "a" () 100).set 0 "b" () 300).currentSize
      = 300 := by
  decide

/-- C5: LRU eviction order and recency refresh.  With `maxSize = 300`,
`maxItems = 10`: after `set a/b/c` (100 bytes each), a fourth `set d` evicts
exactly `"a"`, keeping `"b","c","d"`; if `get("a")` runs first, the fourth
`set d` evicts `"b"` instead and `"a"` survives. -/
theorem lruCache_eviction_order_and_recency :
    (let c3 := (((LRUCache.init Unit 300 10 none).set 0 "a" () 100).set 0
        "b" () 100).set 0 "c" () 100
     let c4 := c3.set 0 "d" () 100
     "a" ∉ c4.keys ∧ "b" ∈ c4.keys ∧ "c" ∈ c4.keys ∧ "d" ∈ c4.keys) ∧
    (let c3 := (((LRUCache.init Unit 300 10 none).set 0 "a" () 100).set 0
        "b" () 100).set 0 "c" () 100
     let c4 := ((c3.get 0 "a").2).set 0 "d" () 100
     "b" ∉ c4.keys ∧ "a" ∈ c4.keys ∧ "c" ∈ c4.keys ∧ "d" ∈ c4.keys) := by
  decide

/-! ### Parser claims -/

/-- C6: empty-frontmatter round trip.  For every behaviour of the
`gray-matter` library, stringifying an empty frontmatter map with the body
produced by `parseFrontmatter` returns that body unchanged, and
`stringifyWithFrontmatter({}, body) = body` for every body: no `---` block is
ever emitted for an empty map. -/
theorem stringifyWithFrontmatter_empty_roundtrip
    (stringifyLib : Frontmatter → String → String)
    (matterLib : String → Frontmatter × String) (d body : String) :
    stringifyWithFrontmatter stringifyLib ⟨[]⟩ (parseFrontmatter matterLib d).2 =
      (parseFrontmatter matterLib d).2 ∧
    stringifyWithFrontmatter stringifyLib ⟨[]⟩ body = body := by
  constructor <;> simp [stringifyWithFrontmatter]

/-! ### Graph-construction claims -/

/-- C3 counterexample: `buildLinkGraph` is *not* partial-failure tolerant.
On the two-document vault `a.md`, `b.md` where reading `a.md` fails, the
whole build rejects with the read error: no per-document error list and no
partial graph are produced. -/
theorem buildLinkGraph_abort_counterexample :
    buildLinkGraph ["a.md", "b.md"] failingRead trivialMatter =
      .error "EACCES: permission denied" := by
  decide

/-- Helper for the amended C3: a read failure in the first pass propagates
out of the whole pass once every earlier document read succeeds. -/
theorem pass1_error_propagates
    (readFile : String → Except String String)
    (matterLib : String → Frontmatter × String)
    (f e : String) (post : List String) :
    ∀ (pre : List String) (acc : Pass1Acc),
      (∀ x ∈ pre, ∃ c, readFile x = .ok c) → readFile f = .error e →
      pass1 readFile matterLib (pre ++ f :: post) acc = .error e := by
  intro pre
  induction pre with
  | nil =>
    intro acc _ hf
    simp only [List.nil_append, pass1, hf]
    rfl
  | cons x pre ih =>
    intro acc hok hf
    obtain ⟨c, hc⟩ := hok x (by simp)
    simp only [List.cons_append, pass1, hc, Except.bind]
    exact ih _ (fun y hy => hok y (by simp [hy])) hf

/-- C3 (amended): a read failure on any one document during
`buildLinkGraph` aborts the whole build and propagates that document's read
error to the caller (provided the documents listed before it read
successfully); no per-document error record or partial graph is returned. -/
theorem buildLinkGraph_read_failure_aborts
    (readFile : String → Except String String)
    (matterLib : String → Frontmatter × String)
    (pre post : List String) (f e : String)
    (hok : ∀ x ∈ pre, ∃ c, readFile x = .ok c)
    (hf : readFile f = .error e) :
    buildLinkGraph (pre ++ f :: post) readFile matterLib = .error e := by
  unfold buildLinkGraph
  rw [pass1_error_propagates readFile matterLib f e post pre ⟨[], [], []⟩ hok hf]
  rfl

/-- Witness for the amended C3 at a concrete vault: reading `b.md` succeeds,
reading `a.md` fails, and the build aborts with the read error. -/
theorem buildLinkGraph_read_failure_aborts_witness :
    buildLinkGraph (["b.md"] ++ "a.md" :: ["c.md"]) failingRead trivialMatter =
      .error "EACCES: permission denied" :=
  buildLinkGraph_read_failure_aborts failingRead trivialMatter ["b.md"] ["c.md"]
    "a.md" "EACCES: permission denied"
    (fun x hx => by
      simp only [List.mem_singleton] at hx
      subst hx
      exact ⟨"[[a]]", by decide⟩)
    (by decide)

theorem mem_setAdd {l : List String} {x y : String} :
    x ∈ setAdd l y ↔ x ∈ l ∨ x = y := by
  by_cases h : y ∈ l <;> simp [setAdd, h]
  rintro rfl; exact h

theorem mapLookup_none_map_id {β : Type} (l : List (String × β)) (k : String)
    (v : β) (h : mapLookup l k = none) :
    l.map (fun p => if p.1 = k then (k, v) else p) = l := by
  induction l with
  | nil => rfl
  | cons p rest ih =>
    simp only [mapLookup] at h
    by_cases hp : p.1 = k
    · simp [hp] at h
    · simp only [List.map_cons, if_neg hp]
      rw [ih (by simpa [hp] using h)]

theorem mapLookup_map_replace {β : Type} (l : List (String × β)) (k k' : String)
    (v : β) (h : (mapLookup l k).isSome) :
    mapLookup (l.map (fun p => if p.1 = k then (k, v) else p)) k' =
      if k' = k then some v else mapLookup l k' := by
  induction l with
  | nil => simp [mapLookup] at h
  | cons p rest ih =>
    by_cases hp : p.1 = k
    · simp only [List.map_cons, if_pos hp]
      by_cases hk : k' = k
      · simp [mapLookup, hk]
      · simp only [mapLookup, if_neg hk]
        rw [if_neg (by exact fun hh => hk hh.symm)]
        rw [if_neg (by rw [hp]; exact fun hh => hk hh.symm)]
        by_cases hr : (mapLookup rest k).isSome
        · rw [ih hr, if_neg hk]
        · rw [mapLookup_none_map_id rest k v
            (by cases hrr : mapLookup rest k
                · rfl
                · exact absurd (by simp [hrr]) hr)]
    · simp only [List.map_cons, if_neg hp]
      simp only [mapLookup] at h ⊢
      rw [if_neg hp] at h
      by_cases hq : p.1 = k'
      · have hk : ¬ (k' = k) := fun hkk => hp (hq.trans hkk)
        rw [if_pos hq, if_neg hk, if_pos hq]
      · rw [if_neg hq, if_neg hq, ih h]

theorem mapLookup_append_single {β : Type} (l : List (String × β))
    (k k' : String) (v : β) (h : mapLookup l k = none) :
    mapLookup (l ++ [(k, v)]) k' =
      if k' = k then some v else mapLookup l k' := by
  induction l with
  | nil =>
    by_cases hk : k' = k
    · simp [mapLookup, hk]
    · simp only [List.nil_append, mapLookup, if_neg hk]
      rw [if_neg (fun hh => hk (Eq.symm hh))]
  | cons p rest ih =>
    simp only [mapLookup] at h
    by_cases hp : p.1 = k
    · simp [hp] at h
    · simp only [List.cons_append, mapLookup, List.append_eq]
      by_cases hq : p.1 = k'
      · have hk : ¬ (k' = k) := fun hh => hp (hq.trans hh)
        simp [hq, hk]
      · rw [if_neg hq, if_neg hq, ih (by simpa [hp] using h)]

theorem mapLookup_mapSet {β : Type} (l : List (String × β)) (k k' : String)
    (v : β) :
    mapLookup (mapSet l k v) k' = if k' = k then some v else mapLookup l k' := by
  unfold mapSet
  by_cases h : (mapLookup l k).isSome
  · rw [if_pos h, mapLookup_map_replace l k k' v h]
  · rw [if_neg h, mapLookup_append_single l k k' v
      (by cases hrr : mapLookup l k
          · rfl
          · exact absurd (by simp [hrr]) h)]
theorem collectOutgoing_no_self (file : String) (links : List NoteLink) :
    file ∉ (collectOutgoing file links).1 := by
  unfold collectOutgoing
  suffices h : ∀ (ls : List NoteLink) (acc : List String × List GraphEdge),
      file ∉ acc.1 →
      file ∉ (ls.foldl (fun acc link =>
        if link.type = .wiki ∨ link.type = .markdown then
          let targetPath := resolveLink link.target file
          if targetPath ≠ "" ∧ targetPath ≠ file then
            (setAdd acc.1 targetPath, acc.2 ++ [⟨file, targetPath, link.type⟩])
          else acc
        else acc) acc).1 by
    exact h links ([], []) (by simp)
  intro ls
  induction ls with
  | nil => intro acc h; exact h
  | cons l rest ih =>
    intro acc h
    simp only [List.foldl_cons]
    split
    · split
      · rename_i hcond
        refine ih _ ?_
        simp only [mem_setAdd]
        rintro (hx | hx)
        · exact h hx
        · exact hcond.2 hx.symm
      · exact ih _ h
    · exact ih _ h
theorem pass1_no_self (readFile : String → Except String String)
    (matterLib : String → Frontmatter × String) :
    ∀ (files : List String) (acc acc' : Pass1Acc),
      LinkCacheNoSelf acc.linkCache →
      pass1 readFile matterLib files acc = .ok acc' →
      LinkCacheNoSelf acc'.linkCache := by
  intro files
  induction files with
  | nil =>
    intro acc acc' hinv h
    simp only [pass1] at h
    cases h
    exact hinv
  | cons file rest ih =>
    intro acc acc' hinv h
    simp only [pass1] at h
    cases hr : readFile file with
    | error e => rw [hr] at h; exact Except.noConfusion h
    | ok content =>
      rw [hr] at h
      refine ih _ _ ?_ h
      intro f s hs hmem
      rw [mapLookup_mapSet] at hs
      by_cases hf : f = file
      · rw [if_pos hf] at hs
        cases hs
        exact collectOutgoing_no_self file _ (hf ▸ hmem)
      · rw [if_neg hf] at hs
        exact hinv f s hs hmem

/-- C7: self-loop exclusion. -/
theorem builtGraph_excludes_self_loops
    (files : List String) (readFile : String → Except String String)
    (matterLib : String → Frontmatter × String) (st : LinkParserState)
    (h : buildLinkGraph files readFile matterLib = .ok st) :
    ∀ d : String, d ∉ st.getForwardLinks d := by
  intro d
  unfold buildLinkGraph at h
  cases hp : pass1 readFile matterLib files ⟨[], [], []⟩ with
  | error e => rw [hp] at h; exact Except.noConfusion h
  | ok acc =>
    rw [hp] at h
    have hlc : st.linkCache = acc.linkCache := by
      have h2 := Except.ok.inj h
      rw [← h2]
    have hinv : LinkCacheNoSelf acc.linkCache :=
      pass1_no_self readFile matterLib files ⟨[], [], []⟩ acc
        (by intro f s hs; simp [mapLookup] at hs) hp
    unfold LinkParserState.getForwardLinks
    rw [hlc]
    cases hl : mapLookup acc.linkCache d with
    | none => simp
    | some s => simpa using hinv d s hl

/-- Witness for C7 at a concrete vault: the one-document vault whose
document `a.md` contains the literal self-referential link `[[a]]` builds
successfully, and `a.md` is not among its own forward links. -/
theorem builtGraph_excludes_self_loops_witness :
    buildLinkGraph ["a.md"] selfLinkRead trivialMatter = .ok selfLinkState ∧
    "a.md" ∉ selfLinkState.getForwardLinks "a.md" :=
  ⟨by decide,
   builtGraph_excludes_self_loops ["a.md"] selfLinkRead trivialMatter
     selfLinkState (by decide) "a.md"⟩

/-! ### Shortest-path trivial case (C10) -/

/-- C10: `findShortestPath` performs no existence check in its trivial case:
whenever the `.md`-normalized forms of the two arguments coincide, it returns
the one-element path holding the normalized source and an empty error list,
for *every* graph — including graphs (vaults) in which no such document
exists. -/
theorem findShortestPath_trivial_skips_existence_check
    (g : List (String × List String)) (s t : String)
    (h : ensureMarkdownExtension s = ensureMarkdownExtension t) :
    findShortestPath g s t =
      { data := [ensureMarkdownExtension s], errors := [] } := by
  unfold findShortestPath
  simp [h]

/-- Witness for C10: `"foo"` and `"foo.md"` normalize alike, and on the empty
vault the result is the path `["foo.md"]` with no errors even though no
document exists at all. -/
theorem findShortestPath_trivial_skips_existence_check_witness :
    ensureMarkdownExtension "foo" = ensureMarkdownExtension "foo.md" ∧
    findShortestPath [] "foo" "foo.md" = { data := ["foo.md"], errors := [] } :=
  ⟨by decide,
   findShortestPath_trivial_skips_existence_check [] "foo" "foo.md" (by decide)⟩

/-! ### Similarity claims (C9) -/

theorem levRec_nil_right (xs : List Char) : levRec xs [] = xs.length := by
  cases xs <;> simp [levRec]

theorem levRec_self (xs : List Char) : levRec xs xs = 0 := by
  induction xs with
  | nil => simp [levRec]
  | cons x xs ih => simp [levRec, ih]

theorem levRec_comm (xs ys : List Char) : levRec xs ys = levRec ys xs := by
  induction xs generalizing ys with
  | nil => cases ys <;> simp [levRec]
  | cons x xs ihx =>
    induction ys with
    | nil => simp [levRec]
    | cons y ys ihy =>
      by_cases h : x = y
      · subst h; simp [levRec, ihx]
      · have h' : ¬ (y = x) := fun hh => h hh.symm
        simp only [levRec, if_neg h, if_neg h']
        rw [ihx ys, ihx (y :: ys), ihy]
        omega

theorem levNextRowAux_spec (c2 : Char) :
    ∀ (cs : List Char) (rev2 r : List Char),
      levNextRowAux c2 cs (rowSeg rev2 r cs) (levRec rev2 r)
        (levRec (c2 :: rev2) r) = rowSeg (c2 :: rev2) r cs := by
  intro cs
  induction cs with
  | nil => intro rev2 r; rfl
  | cons c cs ih =>
    intro rev2 r
    simp only [rowSeg, levNextRowAux]
    have hcur : (if c2 = c then levRec rev2 r
        else min (levRec rev2 r + 1) (min (levRec (c2 :: rev2) r + 1)
          (levRec rev2 (c :: r) + 1))) = levRec (c2 :: rev2) (c :: r) := by
      rw [show levRec (c2 :: rev2) (c :: r) =
        (if c2 = c then levRec rev2 r else 1 + min (levRec rev2 r)
          (min (levRec (c2 :: rev2) r) (levRec rev2 (c :: r)))) from by
          simp [levRec]]
      by_cases h : c2 = c
      · simp [h]
      · simp only [if_neg h]
        omega
    rw [hcur, ih rev2 (c :: r)]
theorem levNextRow_spec (c2 : Char) (s1 rev2 : List Char) :
    levNextRow c2 s1 (levRec rev2 [] :: rowSeg rev2 [] s1) (rev2.length + 1) =
      levRec (c2 :: rev2) [] :: rowSeg (c2 :: rev2) [] s1 := by
  simp only [levNextRow]
  have h1 : levRec (c2 :: rev2) [] = rev2.length + 1 := by
    rw [levRec_nil_right]; simp
  rw [← h1, levNextRowAux_spec c2 s1 rev2 []]

theorem levRows_spec (s1 : List Char) :
    ∀ (s2rest rev2 : List Char),
      levRows s1 s2rest (levRec rev2 [] :: rowSeg rev2 [] s1)
        (rev2.length + 1) =
      levRec (s2rest.reverse ++ rev2) [] ::
        rowSeg (s2rest.reverse ++ rev2) [] s1 := by
  intro s2rest
  induction s2rest with
  | nil => intro rev2; simp [levRows]
  | cons c2 s2rest ih =>
    intro rev2
    simp only [levRows, levNextRow_spec]
    have := ih (c2 :: rev2)
    simp only [List.length_cons] at this
    rw [this]
    simp [List.append_assoc]

theorem rowSeg_nil_left :
    ∀ (cs r : List Char),
      rowSeg [] r cs = (List.range cs.length).map (fun k => k + (r.length + 1)) := by
  intro cs
  induction cs with
  | nil => intro r; simp [rowSeg]
  | cons c cs ih =>
    intro r
    simp only [rowSeg, ih (c :: r)]
    rw [show levRec [] (c :: r) = r.length + 1 from by simp [levRec]]
    simp only [List.length_cons, List.range_succ_eq_map, List.map_cons,
      List.map_map]
    congr 1
    · omega
    · congr 1
      funext k
      simp only [Function.comp_apply, Nat.succ_eq_add_one]
      omega

theorem range_eq_init_row (n : Nat) :
    List.range (n + 1) = 0 :: (List.range n).map (fun k => k + 1) := by
  rw [List.range_succ_eq_map]
theorem rowSeg_getLastD (rev2 : List Char) :
    ∀ (cs r : List Char) (x : Nat),
      (x :: rowSeg rev2 r cs).getLastD 0 =
        if cs = [] then x else levRec rev2 (cs.reverse ++ r) := by
  intro cs
  induction cs with
  | nil => intro r x; simp [rowSeg]
  | cons c cs ih =>
    intro r x
    simp only [rowSeg]
    rw [show (x :: levRec rev2 (c :: r) :: rowSeg rev2 (c :: r) cs).getLastD 0 =
      (levRec rev2 (c :: r) :: rowSeg rev2 (c :: r) cs).getLastD 0 from by
        cases rowSeg rev2 (c :: r) cs <;> simp]
    rw [ih (c :: r) (levRec rev2 (c :: r))]
    by_cases h : cs = []
    · simp [h]
    · simp only [if_neg h, List.reverse_cons, List.append_assoc,
        List.cons_append, List.nil_append]
      rw [if_neg (by simp)]

theorem levDP_eq_levRec (s1 s2 : List Char) :
    levDP s1 s2 = levRec s2.reverse s1.reverse := by
  unfold levDP
  have hinit : List.range (s1.length + 1) =
      levRec ([] : List Char) [] :: rowSeg [] [] s1 := by
    rw [range_eq_init_row]
    rw [rowSeg_nil_left s1 []]
    simp [levRec]
  rw [hinit]
  have h := levRows_spec s1 s2 []
  simp only [List.length_nil, List.append_nil] at h
  rw [show (0 : Nat) + 1 = 1 from rfl] at h
  rw [h]
  rw [rowSeg_getLastD s2.reverse s1 [] (levRec s2.reverse [])]
  by_cases h1 : s1 = []
  · subst h1
    simp [levRec_nil_right]
  · simp [h1]

theorem levenshteinDistance_self (a : List Char) :
    levenshteinDistance a a = 0 := by
  unfold levenshteinDistance
  split
  · simp
  · rw [levDP_eq_levRec, levRec_self]

theorem levenshteinDistance_comm (a b : List Char) :
    levenshteinDistance a b = levenshteinDistance b a := by
  unfold levenshteinDistance
  by_cases hg : a.length > 1000 ∨ b.length > 1000
  · rw [if_pos hg, if_pos (Or.symm hg)]
    by_cases he : a = b
    · simp [he]
    · rw [if_neg he, if_neg (fun hh => he hh.symm), Nat.max_comm]
  · rw [if_neg hg, if_neg (fun hh => hg (Or.symm hh))]
    rw [levDP_eq_levRec, levDP_eq_levRec, levRec_comm]
theorem sampleWindow_comm (a b : List Char) (i : Nat) :
    sampleWindow a b i = sampleWindow b a i := by
  unfold sampleWindow
  rw [Nat.min_comm b.length a.length]
  set A := (a.drop (i * (min a.length b.length - 500) / 5)).take 500 with hA
  set B := (b.drop (i * (min a.length b.length - 500) / 5)).take 500 with hB
  by_cases h : A ≠ [] ∧ B ≠ []
  · rw [if_pos h, if_pos ⟨h.2, h.1⟩]
    rw [levenshteinDistance_comm, max_comm (↑A.length : ℚ) (↑B.length : ℚ)]
  · rw [if_neg h, if_neg (fun hh => h ⟨hh.2, hh.1⟩)]

theorem calculateSampledSimilarity_comm (a b : List Char) :
    calculateSampledSimilarity a b = calculateSampledSimilarity b a := by
  unfold calculateSampledSimilarity
  by_cases he : a = b
  · rw [if_pos he, if_pos he.symm]
  · have hba : ¬ (b = a) := fun hh => he hh.symm
    rw [if_neg he, if_neg hba]
    rw [min_comm (↑b.length : ℚ) (↑a.length : ℚ),
      max_comm (↑b.length : ℚ) (↑a.length : ℚ)]
    rw [show (sampleWindow b a) = (sampleWindow a b) from
      funext (fun i => (sampleWindow_comm a b i).symm)]

theorem calculateStringSimilarity_self (a : List Char) :
    calculateStringSimilarity a a = 1 := by
  unfold calculateStringSimilarity
  simp only [lt_self_iff_false, if_false]
  by_cases h0 : a.length = 0
  · rw [if_pos h0]
  · rw [if_neg h0]
    by_cases h1 : a.length > 1000
    · rw [if_pos h1]
      unfold calculateSampledSimilarity
      rw [if_pos rfl]
    · rw [if_neg h1, levenshteinDistance_self]
      push_cast
      rw [sub_zero]
      exact div_self (by exact_mod_cast h0)

theorem calculateStringSimilarity_comm (a b : List Char) :
    calculateStringSimilarity a b = calculateStringSimilarity b a := by
  unfold calculateStringSimilarity
  rcases Nat.lt_trichotomy a.length b.length with hlt | heq | hgt
  · have h1 : ¬ (a.length > b.length) := by omega
    have h2 : b.length > a.length := hlt
    simp only [if_neg h1, if_pos h2]
    by_cases h0 : b.length = 0
    · rw [if_pos h0, if_pos h0]
    · rw [if_neg h0, if_neg h0]
      by_cases hk : b.length > 1000
      · rw [if_pos hk, if_pos hk, calculateSampledSimilarity_comm]
      · rw [if_neg hk, if_neg hk]
  · have h1 : ¬ (a.length > b.length) := by omega
    have h2 : ¬ (b.length > a.length) := by omega
    simp only [if_neg h1, if_neg h2]
    by_cases h0 : b.length = 0
    · have h0a : a.length = 0 := by omega
      rw [if_pos h0, if_pos h0a]
    · have h0a : ¬ (a.length = 0) := by omega
      rw [if_neg h0, if_neg h0a]
      by_cases hk : b.length > 1000
      · have hka : a.length > 1000 := by omega
        rw [if_pos hk, if_pos hka, calculateSampledSimilarity_comm]
      · have hka : ¬ (a.length > 1000) := by omega
        rw [if_neg hk, if_neg hka, levenshteinDistance_comm b a, heq]
  · have h1 : a.length > b.length := hgt
    have h2 : ¬ (b.length > a.length) := by omega
    simp only [if_pos h1, if_neg h2]
    by_cases h0 : a.length = 0
    · rw [if_pos h0, if_pos h0]
    · rw [if_neg h0, if_neg h0]
      by_cases hk : a.length > 1000
      · rw [if_pos hk, if_pos hk, calculateSampledSimilarity_comm]
      · rw [if_neg hk, if_neg hk]

/-- C9: string similarity is reflexive and symmetric.  For every string,
the Levenshtein-based similarity with itself is exactly 1 (this covers both
the direct tier for lengths up to 1000 and the sampled tier above it, which
the definition selects by length), and similarity is symmetric in its two
arguments. -/
theorem stringSimilarity_reflexive_and_symmetric :
    (∀ a : List Char, calculateStringSimilarity a a = 1) ∧
    (∀ a b : List Char,
      calculateStringSimilarity a b = calculateStringSimilarity b a) :=
  ⟨calculateStringSimilarity_self, calculateStringSimilarity_comm⟩

/-! ### Duplicate-scan gating (C8) -/

/-- C8: size-gated duplicate comparison.  For any pair whose stat-reported
byte size exceeds the 50 KiB ceiling on either side, the comparison never
runs string similarity: it reduces to the hash tier, which is attempted
exactly when the sizes are within 10% of each other, yields content
similarity 1 on hash equality and leaves the accumulated similarity
untouched otherwise.  A pair with both sizes at or below the ceiling (whose
contents are no longer than their byte sizes, as UTF-16 length never exceeds
UTF-8 byte length) is compared by direct string similarity. -/
theorem duplicateScan_size_gating
    (s1 s2 : Nat) (c1 c2 : List Char) (fileHash : List Char → String)
    (sim0 : ℚ) :
    (51200 < s1 ∨ 51200 < s2 →
      contentComparisonStep s1 s2 c1 c2 fileHash sim0 =
        if |(s1 : ℚ) - (s2 : ℚ)| / (((s1 : ℚ) + (s2 : ℚ)) / 2) < 1 / 10 ∧
            fileHash c1 = fileHash c2 then 1 else sim0) ∧
    (s1 ≤ 51200 → s2 ≤ 51200 → c1.length ≤ s1 → c2.length ≤ s2 →
      contentComparisonStep s1 s2 c1 c2 fileHash sim0 =
        if sim0 < calculateStringSimilarity c1 c2
        then calculateStringSimilarity c1 c2 else sim0) := by
  constructor
  · intro hbig
    unfold contentComparisonStep
    rw [if_pos (show s1 > SAFE_SIZE_LIMIT ∨ s2 > SAFE_SIZE_LIMIT from by
      unfold SAFE_SIZE_LIMIT; omega)]
    by_cases hg : |(s1 : ℚ) - (s2 : ℚ)| / (((s1 : ℚ) + (s2 : ℚ)) / 2) < 1 / 10
    · rw [if_pos hg]
      by_cases hh : fileHash c1 = fileHash c2
      · rw [if_pos hh, if_pos ⟨hg, hh⟩]
      · rw [if_neg hh, if_neg (fun hc => hh hc.2)]
    · rw [if_neg hg, if_neg (fun hc => hg hc.1)]
  · intro hs1 hs2 hc1 hc2
    unfold contentComparisonStep
    rw [if_neg (show ¬ (s1 > SAFE_SIZE_LIMIT ∨ s2 > SAFE_SIZE_LIMIT) from by
      unfold SAFE_SIZE_LIMIT; omega)]
    rw [if_neg (show ¬ (c1.length > SAFE_SIZE_LIMIT ∨ c2.length > SAFE_SIZE_LIMIT) from by
      unfold SAFE_SIZE_LIMIT; omega)]

/-- Witness for C8: an over-ceiling pair (60000 and 60001 bytes, within 10%,
equal hashes) takes the hash tier; a small pair (3 and 4 bytes) is compared
by direct string similarity. -/
theorem duplicateScan_size_gating_witness :
    (contentComparisonStep 60000 60001 ['x'] ['x'] charHash 0 =
      if |(60000 : ℚ) - (60001 : ℚ)| / (((60000 : ℚ) + (60001 : ℚ)) / 2) < 1 / 10 ∧
          charHash ['x'] = charHash ['x'] then 1 else 0) ∧
    (contentComparisonStep 3 4 ['a'] ['a', 'b'] charHash 0 =
      if 0 < calculateStringSimilarity ['a'] ['a', 'b']
      then calculateStringSimilarity ['a'] ['a', 'b'] else 0) :=
  ⟨(duplicateScan_size_gating 60000 60001 ['x'] ['x'] charHash 0).1
      (by decide),
   (duplicateScan_size_gating 3 4 ['a'] ['a', 'b'] charHash 0).2
      (by decide) (by decide) (by decide) (by decide)⟩

/-! ### BFS shortest-path contract (C4) -/

theorem exists_crossing (g : List (String × List String)) (Vs : List String) :
    ∀ (q : List String) (a w : String),
      List.Chain' (Edge g) q → q.head? = some a → q.getLast? = some w →
      a ∈ Vs → w ∉ Vs →
      ∃ (q₁ q₂ : List String) (v w' : String),
        q = q₁ ++ v :: w' :: q₂ ∧ v ∈ Vs ∧ w' ∉ Vs ∧ Edge g v w' ∧
        List.Chain' (Edge g) (q₁ ++ [v]) ∧ (q₁ ++ [v]).head? = some a := by
  intro q
  induction q with
  | nil => intro a w _ ha _ _ _; simp at ha
  | cons x rest ih =>
    intro a w hch hhd hlast haV hwV
    simp only [List.head?_cons, Option.some.injEq] at hhd
    subst hhd
    cases rest with
    | nil =>
      simp only [List.getLast?_singleton, Option.some.injEq] at hlast
      subst hlast
      exact absurd haV hwV
    | cons b rest2 =>
      have hedge : Edge g x b := (List.chain'_cons.mp hch).1
      have hch2 : List.Chain' (Edge g) (b :: rest2) := (List.chain'_cons.mp hch).2
      by_cases hbV : b ∈ Vs
      · have hlast2 : (b :: rest2).getLast? = some w := by
          rw [← hlast]
          exact List.getLast?_cons_cons.symm
        obtain ⟨q₁, q₂, v, w', heq, hvV, hw'V, hedge2, hch₁, hhd₁⟩ :=
          ih b w hch2 (by simp) hlast2 hbV hwV
        refine ⟨x :: q₁, q₂, v, w', by simp [heq], hvV, hw'V, hedge2, ?_, by simp⟩
        rw [List.cons_append]
        refine List.chain'_cons'.mpr ⟨?_, hch₁⟩
        intro y hy
        rw [hhd₁] at hy
        cases hy
        exact hedge
      · exact ⟨[], rest2, x, b, by simp, haV, hbV, hedge, by simp, by simp⟩

theorem cross_bound (g : List (String × List String)) (S : String) (L : Nat)
    (Q : List (List String)) (V Vs : List String)
    (hSV : S ∈ V) (hVsub : ∀ v ∈ V, v ∈ Vs)
    (hfront : ∀ v ∈ V, (∃ p ∈ Q, p.getLastD "" = v) ∨
      (∀ u ∈ (adjRaw g v).map ensureMarkdownExtension, u ∈ V))
    (hQlen : ∀ p ∈ Q, L ≤ p.length)
    (hQmin : ∀ p ∈ Q, ∀ r, IsPath g S (p.getLastD "") r → p.length ≤ r.length)
    (hExt : ∀ v ∈ Vs, v ∉ V → ∀ r, IsPath g S v r → L + 1 ≤ r.length) :
    ∀ w, w ∉ Vs → ∀ q, IsPath g S w q → L + 1 ≤ q.length := by
  rintro w hw q ⟨hch, hhd, hlast⟩
  obtain ⟨q₁, q₂, v, w', heq, hvVs, hw'Vs, hedge, hch₁, hhd₁⟩ :=
    exists_crossing g Vs q S w hch hhd hlast (hVsub S hSV) hw
  have hpre : IsPath g S v (q₁ ++ [v]) := ⟨hch₁, hhd₁, List.getLast?_concat _⟩
  have hqlen : q.length = q₁.length + 2 + q₂.length := by
    rw [heq]; simp; omega
  by_cases hvV : v ∈ V
  · rcases hfront v hvV with ⟨p, hpQ, hpl⟩ | hnb
    · have h1 := hQmin p hpQ (q₁ ++ [v]) (by rw [hpl]; exact hpre)
      have h2 := hQlen p hpQ
      simp only [List.length_append, List.length_singleton] at h1
      omega
    · exact absurd (hVsub w' (hnb w' hedge)) hw'Vs
  · have h3 := hExt v hvVs hvV (q₁ ++ [v]) hpre
    simp only [List.length_append, List.length_singleton] at h3
    omega

theorem mapLookup_some_mem {β : Type} {l : List (String × β)} {k : String}
    {v : β} (h : mapLookup l k = some v) : (k, v) ∈ l := by
  induction l with
  | nil => simp [mapLookup] at h
  | cons p rest ih =>
    simp only [mapLookup] at h
    by_cases hp : p.1 = k
    · rw [if_pos hp] at h
      cases h
      have hpk : (k, p.2) = p := by rw [← hp]
      rw [hpk]
      exact List.mem_cons_self p rest
    · rw [if_neg hp] at h
      exact List.mem_cons_of_mem p (ih h)

theorem mem_normValues_of_adj (g : List (String × List String)) (v u : String)
    (h : u ∈ (adjRaw g v).map ensureMarkdownExtension) : u ∈ normValues g := by
  unfold adjRaw at h
  cases hlk : mapLookup g v with
  | none => rw [hlk] at h; simp at h
  | some vs =>
    rw [hlk] at h
    simp only [Option.getD_some] at h
    obtain ⟨l', hl', rfl⟩ := List.mem_map.mp h
    exact List.mem_map.mpr ⟨l', List.mem_flatMap.mpr
      ⟨(v, vs), mapLookup_some_mem hlk, hl'⟩, rfl⟩

theorem front_min {Q : List (List String)} {p₀ : List String}
    (hs : List.Pairwise (fun p q : List String => p.length ≤ q.length)
      (p₀ :: Q)) :
    ∀ p ∈ p₀ :: Q, p₀.length ≤ p.length := by
  intro p hp
  rcases List.mem_cons.mp hp with rfl | hp
  · exact le_refl _
  · exact (List.pairwise_cons.mp hs).1 p hp

theorem getLastD_append_singleton (p : List String) (w : String) :
    (p ++ [w]).getLastD "" = w :=
  List.getLastD_concat "" w p

theorem scanLinks_spec (g : List (String × List String)) (S T : String)
    (p₀ : List String) (rest : List (List String)) (V : List String)
    (hinv : BfsInv g S T (p₀ :: rest) V) :
    ∀ (links : List String) (Vs : List String) (newQ : List (List String))
      (fresh : List String),
      ScanInv g S T (p₀.getLastD "") p₀ V Vs newQ →
      Vs = V ++ fresh → fresh.Nodup →
      (∀ x ∈ fresh, x ∉ V ∧ x ∈ normValues g) →
      newQ.length = fresh.length →
      (∀ l ∈ links, ensureMarkdownExtension l ∈
        (adjRaw g (p₀.getLastD "")).map ensureMarkdownExtension) →
      (match scanLinks T p₀ links Vs newQ with
       | .inl found => found = p₀ ++ [T] ∧ Edge g (p₀.getLastD "") T ∧
           (∀ q, IsPath g S T q → p₀.length + 1 ≤ q.length)
       | .inr (Vs', newQ') =>
           ∃ fresh' : List String,
             ScanInv g S T (p₀.getLastD "") p₀ V Vs' newQ' ∧
             Vs' = V ++ fresh' ∧ fresh'.Nodup ∧
             (∀ x ∈ fresh', x ∉ V ∧ x ∈ normValues g) ∧
             newQ'.length = fresh'.length ∧
             (∀ v ∈ Vs, v ∈ Vs') ∧
             (∀ l ∈ links, ensureMarkdownExtension l ∈ Vs')) := by
  intro links
  induction links with
  | nil =>
    intro Vs newQ fresh hscan hVs hnd hfr hlen _
    simp only [scanLinks]
    exact ⟨fresh, hscan, hVs, hnd, hfr, hlen, fun v hv => hv, by simp⟩
  | cons l ls ih =>
    intro Vs newQ fresh hscan hVs hnd hfr hlen hcov
    have hcovl : ensureMarkdownExtension l ∈
        (adjRaw g (p₀.getLastD "")).map ensureMarkdownExtension :=
      hcov l (List.mem_cons_self l ls)
    have hQlen : ∀ p ∈ p₀ :: rest, p₀.length ≤ p.length :=
      front_min hinv.sortedQ
    by_cases hT : ensureMarkdownExtension l = T
    · simp only [scanLinks, if_pos hT]
      refine ⟨by rw [hT], by rw [← hT]; exact hcovl, ?_⟩
      intro q hq
      exact cross_bound g S p₀.length (p₀ :: rest) V Vs hinv.sourceV
        hscan.vsub hinv.frontier hQlen hinv.minimal hscan.ext T hscan.tnot q hq
    · by_cases hV : ensureMarkdownExtension l ∈ Vs
      · simp only [scanLinks, if_neg hT, if_pos hV]
        have hres := ih Vs newQ fresh hscan hVs hnd hfr hlen
          (fun x hx => hcov x (List.mem_cons_of_mem l hx))
        cases hsc : scanLinks T p₀ ls Vs newQ with
        | inl found => rw [hsc] at hres; exact hres
        | inr out =>
          rw [hsc] at hres
          obtain ⟨fresh', h1, h2, h3, h4, h5, h6, h7⟩ := hres
          exact ⟨fresh', h1, h2, h3, h4, h5, h6, by
            intro x hx
            rcases List.mem_cons.mp hx with rfl | hx
            · exact h6 _ hV
            · exact h7 x hx⟩
      · -- fresh node
        set nl := ensureMarkdownExtension l with hnl
        have hnlV : nl ∉ V := fun hc => hV (hscan.vsub nl hc)
        have hext_nl : ∀ r, IsPath g S nl r → p₀.length + 1 ≤ r.length := by
          intro r hr
          exact cross_bound g S p₀.length (p₀ :: rest) V Vs hinv.sourceV
            hscan.vsub hinv.frontier hQlen hinv.minimal hscan.ext nl hV r hr
        have hscan' : ScanInv g S T (p₀.getLastD "") p₀ V (Vs ++ [nl])
            (newQ ++ [p₀ ++ [nl]]) := by
          refine ⟨?_, ?_, ?_, ?_, ?_⟩
          · intro v hv
            exact List.mem_append_left _ (hscan.vsub v hv)
          · intro hc
            rcases List.mem_append.mp hc with hc | hc
            · exact hscan.tnot hc
            · simp at hc
              exact hT hc.symm
          · intro v hv hvV r hr
            rcases List.mem_append.mp hv with hv | hv
            · exact hscan.ext v hv hvV r hr
            · simp at hv
              subst hv
              exact hext_nl r hr
          · intro w hw hwV
            rcases List.mem_append.mp hw with hw | hw
            · obtain ⟨p, hp, hpl⟩ := hscan.pend w hw hwV
              exact ⟨p, List.mem_append_left _ hp, hpl⟩
            · simp at hw
              subst hw
              exact ⟨p₀ ++ [nl], List.mem_append_right _ (by simp),
                getLastD_append_singleton p₀ nl⟩
          · intro p hp
            rcases List.mem_append.mp hp with hp | hp
            · obtain ⟨w, h1, h2, h3, h4⟩ := hscan.shape p hp
              exact ⟨w, h1, h2, List.mem_append_left _ h3, h4⟩
            · simp at hp
              subst hp
              exact ⟨nl, rfl, hcovl, List.mem_append_right _ (by simp), hnlV⟩
        have hres := ih (Vs ++ [nl]) (newQ ++ [p₀ ++ [nl]]) (fresh ++ [nl])
          hscan'
          (by rw [hVs, List.append_assoc])
          (by
            rw [List.nodup_append]
            refine ⟨hnd, List.nodup_singleton nl, ?_⟩
            intro x hx hx2
            simp at hx2
            subst hx2
            exact hV (hVs ▸ List.mem_append_right _ hx))
          (by
            intro x hx
            rcases List.mem_append.mp hx with hx | hx
            · exact hfr x hx
            · simp at hx
              subst hx
              exact ⟨hnlV, mem_normValues_of_adj g (p₀.getLastD "") nl hcovl⟩)
          (by simp [hlen])
          (fun x hx => hcov x (List.mem_cons_of_mem l hx))
        simp only [scanLinks, if_neg hT, if_neg hV]
        cases hsc : scanLinks T p₀ ls (Vs ++ [nl]) (newQ ++ [p₀ ++ [nl]]) with
        | inl found => rw [hsc] at hres; exact hres
        | inr out =>
          rw [hsc] at hres
          obtain ⟨fresh', h1, h2, h3, h4, h5, h6, h7⟩ := hres
          refine ⟨fresh', h1, h2, h3, h4, h5, ?_, ?_⟩
          · intro v hv
            exact h6 v (List.mem_append_left _ hv)
          · intro x hx
            rcases List.mem_cons.mp hx with rfl | hx
            · exact h6 nl (List.mem_append_right _ (by simp))
            · exact h7 x hx

theorem getLast?_eq_some_getLastD (l : List String) (h : l ≠ []) :
    l.getLast? = some (l.getLastD "") := by
  cases hl : l.getLast? with
  | none => exact absurd (List.getLast?_eq_none_iff.mp hl) h
  | some a => rw [List.getLastD_eq_getLast?, hl]; rfl

theorem filter_out_one (l : List String) (hl : l.Nodup) (x : String)
    (hx : x ∈ l) (V : List String) (hxV : x ∉ V) :
    (l.filter (fun y => y ∉ V ++ [x])).length + 1 =
      (l.filter (fun y => y ∉ V)).length := by
  induction l with
  | nil => simp at hx
  | cons a tl ih =>
    have hand := List.nodup_cons.mp hl
    by_cases hax : a = x
    · subst hax
      have h1 : (a :: tl).filter (fun y => y ∉ V ++ [a]) =
          tl.filter (fun y => y ∉ V ++ [a]) := by
        rw [List.filter_cons]
        simp
      have h2 : (a :: tl).filter (fun y => y ∉ V) =
          a :: tl.filter (fun y => y ∉ V) := by
        rw [List.filter_cons]
        simp [hxV]
      rw [h1, h2]
      have h3 : tl.filter (fun y => y ∉ V ++ [a]) =
          tl.filter (fun y => y ∉ V) := by
        apply List.filter_congr
        intro y hy
        have hya : y ≠ a := fun hc => hand.1 (hc ▸ hy)
        simp [List.mem_append, hya]
      rw [h3]
      simp
    · have hxtl : x ∈ tl := by
        rcases List.mem_cons.mp hx with hc | hc
        · exact absurd hc.symm hax
        · exact hc
      have hsame : (a ∈ V ++ [x]) ↔ (a ∈ V) := by
        simp [List.mem_append, hax]
      rw [List.filter_cons, List.filter_cons]
      by_cases haV : a ∈ V
      · rw [if_neg (by simp [List.mem_append, haV]),
          if_neg (by simp [haV])]
        exact ih hand.2 hxtl
      · rw [if_pos (by simp [List.mem_append, haV, hax]),
          if_pos (by simp [haV])]
        simp only [List.length_cons]
        have := ih hand.2 hxtl
        omega

theorem count_drop_fresh (g : List (String × List String)) :
    ∀ (fresh V : List String), fresh.Nodup →
      (∀ x ∈ fresh, x ∉ V ∧ x ∈ normValues g) →
      ((normValues g).dedup.filter (fun x => x ∉ V ++ fresh)).length +
          fresh.length =
        ((normValues g).dedup.filter (fun x => x ∉ V)).length := by
  intro fresh
  induction fresh with
  | nil => intro V _ _; simp
  | cons x fresh ih =>
    intro V hnd hf
    have hnd2 := List.nodup_cons.mp hnd
    have hx := hf x (List.mem_cons_self x fresh)
    have hstep := filter_out_one (normValues g).dedup (List.nodup_dedup _) x
      (List.mem_dedup.mpr hx.2) V hx.1
    have hrec := ih (V ++ [x]) hnd2.2 (by
      intro y hy
      refine ⟨?_, (hf y (List.mem_cons_of_mem x hy)).2⟩
      intro hc
      rcases List.mem_append.mp hc with hc | hc
      · exact (hf y (List.mem_cons_of_mem x hy)).1 hc
      · simp at hc
        subst hc
        exact hnd2.1 hy)
    have harr : V ++ x :: fresh = (V ++ [x]) ++ fresh := by
      simp [List.append_assoc]
    rw [harr]
    simp only [List.length_cons]
    omega

theorem empty_queue_no_path (g : List (String × List String)) (S T : String)
    (V : List String) (hinv : BfsInv g S T [] V) :
    ¬ ∃ q, IsPath g S T q := by
  rintro ⟨q, hq⟩
  have := cross_bound g S q.length [] V V hinv.sourceV (fun v hv => hv)
    hinv.frontier (by simp) (by simp)
    (fun v hv hnv => absurd hv hnv) T hinv.targetV q hq
  omega

theorem bfsLoop_spec (g : List (String × List String)) (S T : String) :
    ∀ (fuel : Nat) (Q : List (List String)) (V : List String),
      BfsInv g S T Q V → bfsMeasure g Q V < fuel →
      (match bfsLoop g T fuel Q V with
       | .found p => IsPath g S T p ∧ ∀ q, IsPath g S T q → p.length ≤ q.length
       | .notFound => ¬ ∃ q, IsPath g S T q
       | .outOfFuel => False) := by
  intro fuel
  induction fuel with
  | zero =>
    intro Q V hinv hm
    exact absurd hm (Nat.not_lt_zero _)
  | succ fuel ihf =>
    intro Q V hinv hm
    cases Q with
    | nil =>
      simp only [bfsLoop]
      exact empty_queue_no_path g S T V hinv
    | cons p₀ rest =>
      obtain ⟨hp₀ne, hp₀ch, hp₀hd, hp₀la⟩ := hinv.paths p₀ (List.mem_cons_self _ _)
      have hscan0 : ScanInv g S T (p₀.getLastD "") p₀ V V [] :=
        ⟨fun v hv => hv, hinv.targetV, fun v hv hnv => absurd hv hnv,
         fun w hw hnw => absurd hw hnw, by simp⟩
      have hres := scanLinks_spec g S T p₀ rest V hinv
        (adjRaw g (p₀.getLastD "")) V [] [] hscan0 (by simp) List.nodup_nil
        (by simp) rfl (fun l hl => List.mem_map_of_mem _ hl)
      simp only [bfsLoop]
      cases hsc : scanLinks T p₀ (adjRaw g (p₀.getLastD "")) V [] with
      | inl found =>
        rw [hsc] at hres
        obtain ⟨hfound, hedge, hmin⟩ := hres
        subst hfound
        constructor
        · refine ⟨?_, ?_, List.getLast?_concat _⟩
          · rw [List.chain'_append]
            refine ⟨hp₀ch, List.chain'_singleton T, ?_⟩
            intro x hx y hy
            simp only [List.head?_cons, Option.mem_def, Option.some.injEq] at hy
            subst hy
            rw [getLast?_eq_some_getLastD p₀ hp₀ne] at hx
            simp only [Option.mem_def, Option.some.injEq] at hx
            subst hx
            exact hedge
          · rw [List.head?_append_of_ne_nil _ hp₀ne]
            exact hp₀hd
        · intro q hq
          have := hmin q hq
          simp only [List.length_append, List.length_singleton]
          omega
      | inr out =>
        obtain ⟨Vs', newQ'⟩ := out
        rw [hsc] at hres
        obtain ⟨fresh', hscan', hVs', hnd', hfr', hlen', hmono, hcov'⟩ := hres
        have hQlen := front_min hinv.sortedQ
        -- facts about the new queue entries
        have hshape := hscan'.shape
        have hinv' : BfsInv g S T (rest ++ newQ') Vs' := by
          refine ⟨?_, ?_, ?_, ?_, ?_, ?_, ?_⟩
          · intro p hp
            rcases List.mem_append.mp hp with hp | hp
            · obtain ⟨h1, h2, h3, h4⟩ :=
                hinv.paths p (List.mem_cons_of_mem _ hp)
              exact ⟨h1, h2, h3, hmono _ h4⟩
            · obtain ⟨w, rfl, hew, hwVs, hwV⟩ := hshape p hp
              refine ⟨by simp, ?_, ?_, ?_⟩
              · rw [List.chain'_append]
                refine ⟨hp₀ch, List.chain'_singleton w, ?_⟩
                intro x hx y hy
                simp only [List.head?_cons, Option.mem_def,
                  Option.some.injEq] at hy
                subst hy
                rw [getLast?_eq_some_getLastD p₀ hp₀ne] at hx
                simp only [Option.mem_def, Option.some.injEq] at hx
                subst hx
                exact hew
              · rw [List.head?_append_of_ne_nil _ hp₀ne]
                exact hp₀hd
              · rw [getLastD_append_singleton]
                exact hwVs
          · intro p hp r hr
            rcases List.mem_append.mp hp with hp | hp
            · exact hinv.minimal p (List.mem_cons_of_mem _ hp) r hr
            · obtain ⟨w, rfl, hew, hwVs, hwV⟩ := hshape p hp
              rw [getLastD_append_singleton] at hr
              have := hscan'.ext w hwVs hwV r hr
              simp only [List.length_append, List.length_singleton]
              omega
          · rw [List.pairwise_append]
            refine ⟨hinv.sortedQ.of_cons, ?_, ?_⟩
            · apply List.pairwise_of_forall_mem_list
              intro p hp q hq
              obtain ⟨w, rfl, _, _, _⟩ := hshape p hp
              obtain ⟨w', rfl, _, _, _⟩ := hshape q hq
              simp
            · intro p hp q hq
              obtain ⟨w, rfl, _, _, _⟩ := hshape q hq
              have := hinv.close p (List.mem_cons_of_mem _ hp) p₀
                (List.mem_cons_self _ _)
              simp only [List.length_append, List.length_singleton]
              omega
          · intro p hp q hq
            have hple : p.length ≤ p₀.length + 1 := by
              rcases List.mem_append.mp hp with hp | hp
              · exact hinv.close p (List.mem_cons_of_mem _ hp) p₀
                  (List.mem_cons_self _ _)
              · obtain ⟨w, rfl, _, _, _⟩ := hshape p hp
                simp
            have hqge : p₀.length ≤ q.length := by
              rcases List.mem_append.mp hq with hq | hq
              · exact hQlen q (List.mem_cons_of_mem _ hq)
              · obtain ⟨w, rfl, _, _, _⟩ := hshape q hq
                simp only [List.length_append, List.length_singleton]
                omega
            omega
          · exact hmono _ hinv.sourceV
          · exact hscan'.tnot
          · intro v hv
            rcases hx : List.mem_append.mp (hVs' ▸ hv) with hvV | hvF
            · rcases hinv.frontier v hvV with ⟨p, hp, hpl⟩ | hnb
              · rcases List.mem_cons.mp hp with rfl | hp
                · right
                  intro u hu
                  obtain ⟨l, hl, rfl⟩ := List.mem_map.mp hu
                  rw [← hpl] at hl
                  exact hcov' l hl
                · exact Or.inl ⟨p, List.mem_append_left _ hp, hpl⟩
              · right
                intro u hu
                exact hmono _ (hnb u hu)
            · have hvnV := (hfr' v hvF).1
              obtain ⟨p, hp, hpl⟩ := hscan'.pend v (hVs' ▸ hv) hvnV
              exact Or.inl ⟨p, List.mem_append_right _ hp, hpl⟩
        have hmeas : bfsMeasure g (rest ++ newQ') Vs' < fuel := by
          have hcount := count_drop_fresh g fresh' V hnd' hfr'
          rw [← hVs'] at hcount
          simp only [bfsMeasure, List.length_append] at hm ⊢
          simp only [List.length_cons] at hm
          omega
        have := ihf (rest ++ newQ') Vs' hinv' hmeas
        exact this

/-- C4: the shortest-path contract.  After normalization: equal endpoints give
the single-element path; when no directed forward-link path exists the result
is the empty list; when a path exists the result is a forward-link path from
source to target inclusive of minimal length. -/
theorem findShortestPath_bfs_contract (g : List (String × List String))
    (s t : String) :
    (ensureMarkdownExtension s = ensureMarkdownExtension t →
      (findShortestPath g s t).data = [ensureMarkdownExtension s]) ∧
    (ensureMarkdownExtension s ≠ ensureMarkdownExtension t →
      ¬ (∃ p, IsPath g (ensureMarkdownExtension s)
        (ensureMarkdownExtension t) p) →
      (findShortestPath g s t).data = []) ∧
    (ensureMarkdownExtension s ≠ ensureMarkdownExtension t →
      (∃ p, IsPath g (ensureMarkdownExtension s)
        (ensureMarkdownExtension t) p) →
      IsPath g (ensureMarkdownExtension s) (ensureMarkdownExtension t)
        (findShortestPath g s t).data ∧
      ∀ q, IsPath g (ensureMarkdownExtension s) (ensureMarkdownExtension t) q →
        (findShortestPath g s t).data.length ≤ q.length) := by
  set S := ensureMarkdownExtension s with hS
  set T := ensureMarkdownExtension t with hT
  by_cases hst : S = T
  · refine ⟨fun _ => ?_, fun h => absurd hst h, fun h => absurd hst h⟩
    unfold findShortestPath
    rw [← hS, ← hT, if_pos hst]
  · have hinv0 : BfsInv g S T [[S]] [S] := by
      refine ⟨?_, ?_, ?_, ?_, ?_, ?_, ?_⟩
      · intro p hp
        simp only [List.mem_singleton] at hp
        subst hp
        exact ⟨by simp, List.chain'_singleton S, rfl, by simp [List.getLastD]⟩
      · intro p hp r hr
        simp only [List.mem_singleton] at hp
        subst hp
        obtain ⟨_, hhd, _⟩ := hr
        have : r ≠ [] := fun hc => by simp [hc] at hhd
        simp only [List.length_singleton]
        exact Nat.one_le_iff_ne_zero.mpr (fun hc => this
          (List.length_eq_zero.mp hc))
      · simp
      · intro p hp q hq
        simp only [List.mem_singleton] at hp hq
        subst hp; subst hq
        omega
      · simp
      · intro hc
        simp only [List.mem_singleton] at hc
        exact hst hc.symm
      · intro v hv
        simp only [List.mem_singleton] at hv
        subst hv
        exact Or.inl ⟨[S], by simp, by simp [List.getLastD]⟩
    have hmeas : bfsMeasure g [[S]] [S] < (normValues g).dedup.length + 2 := by
      simp only [bfsMeasure, List.length_singleton]
      have := List.length_filter_le (fun x => decide (x ∉ [S]))
        (normValues g).dedup
      omega
    have hspec := bfsLoop_spec g S T ((normValues g).dedup.length + 2)
      [[S]] [S] hinv0 hmeas
    have hunf : findShortestPath g s t =
        (match bfsLoop g T ((normValues g).dedup.length + 2) [[S]] [S] with
         | .found p => { data := p, errors := [] }
         | _ => { data := [], errors := [] } : GraphResponse) := by
      unfold findShortestPath
      rw [← hS, ← hT, if_neg hst]
    cases hb : bfsLoop g T ((normValues g).dedup.length + 2) [[S]] [S] with
    | found p =>
      rw [hb] at hspec hunf
      refine ⟨fun h => absurd h hst, fun _ hno => absurd ⟨p, hspec.1⟩ hno,
        fun _ _ => ?_⟩
      rw [hunf]
      exact hspec
    | notFound =>
      rw [hb] at hspec hunf
      refine ⟨fun h => absurd h hst, fun _ _ => by rw [hunf],
        fun _ hex => absurd hex hspec⟩
    | outOfFuel =>
      rw [hb] at hspec
      exact absurd hspec (by simp)

/-- Witness for C4: the trivial case on an unrelated vault, the no-path case
on the empty vault, and the existing-path case on the three-document chain. -/
theorem findShortestPath_bfs_contract_witness :
    ((findShortestPath [] "a" "a.md").data =
      [ensureMarkdownExtension "a"]) ∧
    ((findShortestPath [] "x.md" "y.md").data = []) ∧
    (IsPath pathGraph (ensureMarkdownExtension "A.md")
        (ensureMarkdownExtension "C.md")
        (findShortestPath pathGraph "A.md" "C.md").data ∧
      ∀ q, IsPath pathGraph (ensureMarkdownExtension "A.md")
          (ensureMarkdownExtension "C.md") q →
        (findShortestPath pathGraph "A.md" "C.md").data.length ≤ q.length) :=
  ⟨(findShortestPath_bfs_contract [] "a" "a.md").1 (by decide),
   (findShortestPath_bfs_contract [] "x.md" "y.md").2.1 (by decide)
     (by
       rintro ⟨p, hch, hhd, hla⟩
       cases p with
       | nil => simp at hhd
       | cons x rest =>
         cases rest with
         | nil =>
           simp only [List.head?_cons, Option.some.injEq] at hhd
           simp only [List.getLast?_singleton, Option.some.injEq] at hla
           subst hhd
           exact absurd (hla.symm.trans rfl) (by decide)
         | cons y rest2 =>
           have he := (List.chain'_cons.mp hch).1
           simp [Edge, adjRaw, mapLookup] at he),
   (findShortestPath_bfs_contract pathGraph "A.md" "C.md").2.2 (by decide)
     ⟨["A.md", "B.md", "C.md"],
      List.chain'_cons.mpr ⟨by decide, List.chain'_cons.mpr
        ⟨by decide, List.chain'_singleton _⟩⟩, by decide, by decide⟩⟩

end ObsidianMCP
